import Mathlib

/-!
Verification of the Quine–McCluskey minimizer (`qm.py`).

Shallow embedding of the source: `Minterm` (class `Minterm`), the `QM`
pipeline (`__get_bits`, `__initial_group`, `__get_prime_implicants`,
`__power_set`, `__solve`, `__get_function`, `get_function`).  Python
mutation of the `used` flag is modelled by explicit state passing; Python
exceptions (out-of-range list indexing) are modelled by `Option.none`.
-/

/-- Minterm record: `values` is the `_values` list of covered integer
indices, `value` is the `_value` ternary bit pattern (a Python string,
modelled as a list of characters), `used` is the `_used` flag. -/
structure Minterm where
  values : List Nat
  value : List Char
  used : Bool
deriving DecidableEq, Repr

/-- Default element used only for out-of-range `getD` reads that the
source can never perform (it would raise instead). -/
def mtDefault : Minterm := ⟨[], [], false⟩

instance : Inhabited Minterm := ⟨mtDefault⟩

/-- Constructor `Minterm.__init__`: stores the values and pattern, sets
`_used = False`, and sorts the values list in place (`self._values.sort()`). -/
def Minterm.mk' (values : List Nat) (value : List Char) : Minterm :=
  ⟨values.insertionSort (· ≤ ·), value, false⟩

/-- Method `Minterm.use`: sets the `_used` flag. -/
def Minterm.use (m : Minterm) : Minterm := { m with used := true }

/-- Python `Minterm.__eq__`: structural equality on `_value` and `_values`
only; the `_used` flag is ignored. -/
def mtEq (a b : Minterm) : Bool :=
  decide (a.value = b.value) && decide (a.values = b.values)

/-- Python `term in list` membership, which tests elements with
`Minterm.__eq__`. -/
def mtMem (t : Minterm) (l : List Minterm) : Bool :=
  l.any (fun x => mtEq x t)

/-- Character loop of `Minterm.combine`: walks both patterns in parallel,
counting differing positions in `diff` and writing `-` at them; returns
`none` as soon as the running difference exceeds 1.  The source indexes
`minterm._value[char]` by `self`'s indices, so a shorter `other` pattern
would raise IndexError (modelled `none`); within the algorithm both
patterns always have the variable count as length. -/
def combineLoop : List Char → List Char → Nat → Option (List Char)
  | [], _, _ => some []
  | _ :: _, [], _ => none
  | c1 :: r1, c2 :: r2, diff =>
    if c1 ≠ c2 then
      if diff + 1 > 1 then none
      else (combineLoop r1 r2 (diff + 1)).map (fun r => '-' :: r)
    else
      (combineLoop r1 r2 diff).map (fun r => c1 :: r)

/-- Method `Minterm.combine`: returns `None` when the patterns are equal
or the covered lists are equal, otherwise merges the patterns when they
differ in at most one position, building the new term from the
concatenated covered lists (sorted by the constructor). -/
def Minterm.combine (self other : Minterm) : Option Minterm :=
  if self.value = other.value ∨ self.values = other.values then none
  else
    (combineLoop self.value other.value 0).map
      (fun res => Minterm.mk' (self.values ++ other.values) res)

/-- State-passing form of `Minterm.combine`: the Python method body
contains no assignment to either operand's `_used` flag, so the (possibly
updated) operands returned alongside the result are the operands
themselves, unchanged. -/
def Minterm.combineM (self other : Minterm) :
    Option Minterm × Minterm × Minterm :=
  (self.combine other, self, other)

/-- Python `s.rjust(n, c)` on a string modelled as a character list: pads
on the left up to length `n`, never truncates. -/
def rjust (n : Nat) (c : Char) (s : List Char) : List Char :=
  List.replicate (n - s.length) c ++ s

/-- Method `QM.__get_bits`: `bin(value)[2:].rjust(len(self._variables), "0")`. -/
def getBits (vars : List String) (value : Nat) : List Char :=
  rjust vars.length '0' (Nat.toDigits 2 value)

/-- Method `QM.__initial_group`: `len(vars) + 1` empty buckets, then
each value is appended to the bucket indexed by the popcount of its bit
string.  `groups[count]` raises IndexError when the popcount exceeds
`len(vars)` (the bit string is padded but never truncated), modelled
by `none`. -/
def initialGroup (vars : List String) (allValues : List Nat) :
    Option (List (List Minterm)) :=
  allValues.foldlM
    (fun groups value =>
      let bits := getBits vars value
      let count := bits.count '1'
      if h : count < groups.length then
        some (groups.set count (groups.get ⟨count, h⟩ ++ [Minterm.mk' [value] bits]))
      else
        none)
    (List.replicate (vars.length + 1) ([] : List Minterm))

/-- Inner comparison loop of `QM.__get_prime_implicants`: one `term1`
against every `term2` of the second group.  On each successful combine the
source calls `term1.use()` and `term2.use()` and appends `term3` to the new
group unless already present (Python `in`, i.e. `Minterm.__eq__`).  The
threaded triple is (current `term1`, updated second group, updated new
group). -/
def innerLoop : Minterm → List Minterm → List Minterm →
    Minterm × List Minterm × List Minterm
  | t1, [], ng => (t1, [], ng)
  | t1, t2 :: rest, ng =>
    match Minterm.combine t1 t2 with
    | some t3 =>
      let ng' := if mtMem t3 ng then ng else ng ++ [t3]
      let next := innerLoop t1.use rest ng'
      (next.1, t2.use :: next.2.1, next.2.2)
    | none =>
      let next := innerLoop t1 rest ng
      (next.1, t2 :: next.2.1, next.2.2)

/-- Outer comparison loop of `QM.__get_prime_implicants`: every `term1`
of the first group against the whole second group. -/
def outerLoop : List Minterm → List Minterm → List Minterm →
    List Minterm × List Minterm × List Minterm
  | [], g2, ng => ([], g2, ng)
  | t1 :: rest, g2, ng =>
    let step := innerLoop t1 g2 ng
    let next := outerLoop rest step.2.1 step.2.2
    (step.1 :: next.1, next.2.1, next.2.2)

/-- Comparison pass over consecutive group pairs starting from `g1`;
returns the groups with their final `used` flags together with the list of
new groups (one per adjacent pair), mirroring the `for compare in
comparisons` loop where mutations of a group during pair `i` are visible
when it is reused in pair `i + 1`. -/
def passFrom (g1 : List Minterm) : List (List Minterm) →
    List (List Minterm) × List (List Minterm)
  | [] => ([g1], [])
  | g2 :: rest =>
    let step := outerLoop g1 g2 []
    let next := passFrom step.2.1 rest
    (step.1 :: next.1, step.2.2 :: next.2)

/-- Comparison pass over all adjacent group pairs. -/
def passAll : List (List Minterm) → List (List Minterm) × List (List Minterm)
  | [] => ([], [])
  | g :: rest => passFrom g rest

/-- Unused-term collection of `QM.__get_prime_implicants`: appends each
term whose `used` flag is still false and which is not already present
(Python `in`, i.e. `Minterm.__eq__`). -/
def addUnused (acc : List Minterm) (ts : List Minterm) : List Minterm :=
  ts.foldl
    (fun acc t => if t.used = false ∧ mtMem t acc = false then acc ++ [t] else acc)
    acc

/-- Unused-term collection over a list of groups, in group order. -/
def addUnusedGroups (acc : List Minterm) (groups : List (List Minterm)) :
    List Minterm :=
  groups.foldl addUnused acc

/-- Recursive body of `QM.__get_prime_implicants`.  The fuel argument is
always instantiated with the group count; each recursive call is on one
group fewer, so the fuel never runs out on the source's call pattern (the
source never calls this with an empty group list — doing so would loop
forever in Python). -/
def getPrimeImplicantsFuel : Nat → List (List Minterm) → List Minterm
  | 0, groups => groups.headD []
  | fuel + 1, groups =>
    if groups.length = 1 then groups.headD []
    else
      let pass := passAll groups
      let unused := addUnusedGroups [] pass.1
      addUnused unused (getPrimeImplicantsFuel fuel pass.2)

/-- Method `QM.__get_prime_implicants` on a group list. -/
def getPrimeImplicants (groups : List (List Minterm)) : List Minterm :=
  getPrimeImplicantsFuel groups.length groups

/-- Covered-value computation inside `QM.__power_set`: the values of the
subset's implicants that occur in `values`, without duplicates, in first
occurrence order, then sorted (`temp_values.sort()`). -/
def coveredValues (subset : List Minterm) (values : List Nat) : List Nat :=
  (subset.foldl
    (fun temp m =>
      m.values.foldl
        (fun temp v => if v ∉ temp ∧ v ∈ values then temp ++ [v] else temp)
        temp)
    []).insertionSort (· ≤ ·)

/-- Subset enumeration of `QM.__power_set`: for `i` in `[1, 2^k)` the
subset selects `prime_implicants[index]` at every index where the
`k`-padded binary string of `i` has a `1`. -/
def powerSetEnum (primeImplicants : List Minterm) : List (List Minterm) :=
  ((List.range (2 ^ primeImplicants.length)).drop 1).map
    (fun i =>
      let bv := rjust primeImplicants.length '0' (Nat.toDigits 2 i)
      ((bv.zip primeImplicants).filter (fun p => decide (p.1 = '1'))).map
        (fun p => p.2))

/-- Selection loop of `QM.__power_set`: `min_set` starts as the first
enumerated subset (`power_set[0]`, raising IndexError on an empty
enumeration, modelled `none`) and is replaced by a subset only when that
subset's covered values equal `values` and it is strictly shorter than the
current `min_set`. -/
def selectMinSet (values : List Nat) (subsets : List (List Minterm)) :
    Option (List Minterm) :=
  match subsets with
  | [] => none
  | first :: _ =>
    some (subsets.foldl
      (fun minSet subset =>
        if coveredValues subset values = values ∧ subset.length < minSet.length
        then subset else minSet)
      first)

/-- Static method `QM.__power_set`. -/
def powerSetFn (values : List Nat) (primeImplicants : List Minterm) :
    Option (List Minterm) :=
  selectMinSet values (powerSetEnum primeImplicants)

/-- Marking loop of `QM.__solve`: for every value covered by the essential
implicant that is not a don't-care, set `values_used[self._values.index(v)]`
(`List.set` out of range is a no-op; the corresponding Python ValueError is
unreachable because covered values always come from `values ++ dont_cares`). -/
def markValues (values dontCares : List Nat) (coveredVals : List Nat)
    (used : List Bool) : List Bool :=
  coveredVals.foldl
    (fun u v => if v ∈ dontCares then u else u.set (values.indexOf v) true)
    used

/-- One iteration of the essential-implicant scan of `QM.__solve` for a
single true value: count the prime implicants covering it and remember the
last; when exactly one covers it and it is not yet essential, mark all its
non-don't-care values and append it to the essential list. -/
def essentialStep (values dontCares : List Nat) (primes : List Minterm)
    (st : List Minterm × List Bool) (value : Nat) : List Minterm × List Bool :=
  let ess := st.1
  let used := st.2
  let covering := primes.filter (fun p => decide (value ∈ p.values))
  match covering.getLast? with
  | none => (ess, used)
  | some last =>
    if covering.length = 1 ∧ mtMem last ess = false then
      (ess ++ [last], markValues values dontCares last.values used)
    else (ess, used)

/-- Essential-implicant scan of `QM.__solve` over all true values in list
order, starting from an empty essential list and an all-false
`values_used` array. -/
def essentialLoop (values dontCares : List Nat) (primes : List Minterm) :
    List Minterm × List Bool :=
  values.foldl (essentialStep values dontCares primes)
    ([], List.replicate values.length false)

/-- Method `QM.__solve`: prime implicants from the initial grouping,
essential selection, then — when unsatisfied values remain — the filtered
candidate pool, the single-candidate shortcut, and the power-set cover
search over the residual values. -/
def solve (vars : List String) (values dontCares : List Nat) :
    Option (List Minterm) :=
  match initialGroup vars (values ++ dontCares) with
  | none => none
  | some groups =>
    let primes := getPrimeImplicants groups
    let st := essentialLoop values dontCares primes
    let ess := st.1
    let used := st.2
    if used.count false = 0 then some ess
    else
      let pool := primes.filter
        (fun p => decide (mtMem p ess = false ∧
          0 < (p.values.filter (fun v => decide (v ∉ dontCares))).length))
      if pool.length = 1 then some (ess ++ pool)
      else
        let residual := ((values.zip used).filter (fun p => decide (p.2 = false))).map
          (fun p => p.1)
        match powerSetFn residual pool with
        | none => none
        | some cover => some (ess ++ cover)

/-- Per-implicant rendering inside `QM.__get_function`: `NOT ` before a
bit equal to the negation polarity of the mode, the variable name for
every non-dash bit, the mode's literal joiner whenever a later non-dash
bit exists, and parentheses whenever the pattern has fewer dashes than
vars. -/
def renderImplicant (vars : List String) (isMaxterm : Bool) (m : Minterm) :
    String :=
  let core := (List.range m.value.length).foldl
    (fun r i =>
      let c := m.value.getD i ' '
      let r := if c = (if !isMaxterm then '0' else '1') then r ++ "NOT " else r
      let r := if c ≠ '-' then r ++ vars.getD i "" else r
      if (m.value.drop (i + 1)).count '-' < m.value.length - i - 1 ∧ c ≠ '-' then
        r ++ (if !isMaxterm then " AND " else " OR ")
      else r)
    ""
  if m.value.count '-' < vars.length then "(" ++ core ++ ")" else core

/-- Clause joining of `QM.__get_function`: the mode's clause joiner after
every clause except the last. -/
def joinSep (sep : String) : List String → String
  | [] => ""
  | [s] => s
  | s :: rest => s ++ sep ++ joinSep sep rest

/-- Method `QM.__get_function` applied to a solved implicant list: `"0"`
for an empty list, `"1"` for a single implicant whose pattern has as many
dashes as there are vars, otherwise the joined rendered clauses. -/
def renderFunction (vars : List String) (isMaxterm : Bool)
    (primes : List Minterm) : String :=
  if primes.length = 0 then "0"
  else if primes.length = 1 ∧ (primes.getD 0 mtDefault).value.count '-' = vars.length
  then "1"
  else joinSep (if !isMaxterm then " OR " else " AND ")
    (primes.map (renderImplicant vars isMaxterm))

/-- Composition `QM.__get_function`: solve, then render. -/
def getFunctionStr (vars : List String) (values dontCares : List Nat)
    (isMaxterm : Bool) : Option String :=
  (solve vars values dontCares).map (renderFunction vars isMaxterm)

/-- Record for a constructed `QM` instance: the constructor stores the
inputs, `values + dont_cares`, and the eagerly computed expression string. -/
structure QM where
  vars : List String
  values : List Nat
  dontCares : List Nat
  allValues : List Nat
  isMaxterm : Bool
  function : String
deriving DecidableEq, Repr

/-- Constructor `QM.__init__` (with `dont_cares` already defaulted to the
empty list): computes `self._function = self.__get_function()` eagerly;
`none` models the uncaught exception paths. -/
def mkQM (vars : List String) (values dontCares : List Nat)
    (isMaxterm : Bool) : Option QM :=
  (getFunctionStr vars values dontCares isMaxterm).map
    (fun f => ⟨vars, values, dontCares, values ++ dontCares, isMaxterm, f⟩)

/-- Method `QM.get_function`: returns the stored `_function` string and
leaves the instance unchanged (state-passing form). -/
def QM.get_function (q : QM) : String × QM := (q.function, q)

/-!
Truth-table evaluator for the rendered minterm-mode expression grammar:
clauses joined by `" OR "`, literals joined by `" AND "`, a literal being
an optionally `NOT `-prefixed variable name, a clause wrapped in
parentheses, plus the constants `"0"` and `"1"`.  This is the verification
harness for the spec's "substitute a bit assignment and re-evaluate the
rendered string" properties; it is not part of the source.
-/

/-- Split a character list at every occurrence of `" OR "`. -/
def splitOnOr : List Char → List (List Char)
  | ' ' :: 'O' :: 'R' :: ' ' :: rest => [] :: splitOnOr rest
  | c :: rest =>
    match splitOnOr rest with
    | [] => [[c]]
    | h :: t => (c :: h) :: t
  | [] => [[]]

/-- Split a character list at every occurrence of `" AND "`. -/
def splitOnAnd : List Char → List (List Char)
  | ' ' :: 'A' :: 'N' :: 'D' :: ' ' :: rest => [] :: splitOnAnd rest
  | c :: rest =>
    match splitOnAnd rest with
    | [] => [[c]]
    | h :: t => (c :: h) :: t
  | [] => [[]]

/-- Strip one matching outer parenthesis pair, when present. -/
def stripParens (clause : List Char) : List Char :=
  match clause with
  | '(' :: rest => if rest.getLast? = some ')' then rest.dropLast else clause
  | _ => clause

/-- Truth value of a variable name under the bit assignment `bits`
(indexed by the variable's position in `vars`). -/
def evalVarName (vars : List String) (bits : List Char)
    (name : List Char) : Bool :=
  match vars.findIdx? (fun v => decide (v.data = name)) with
  | some i => decide (bits.getD i '0' = '1')
  | none => false

/-- Truth value of a literal: an optional `NOT ` prefix negates the
variable it names. -/
def evalLiteral (vars : List String) (bits : List Char)
    (lit : List Char) : Bool :=
  match lit with
  | 'N' :: 'O' :: 'T' :: ' ' :: rest => !(evalVarName vars bits rest)
  | _ => evalVarName vars bits lit

/-- Truth value of a rendered minterm-mode expression string under the bit
assignment of the integer `k` (padded to the variable count, as in
`QM.__get_bits`). -/
def evalExpr (vars : List String) (k : Nat) (s : String) : Bool :=
  let bits := getBits vars k
  let cs := s.data
  if cs = ['0'] then false
  else if cs = ['1'] then true
  else
    (splitOnOr cs).any
      (fun clause => (splitOnAnd (stripParens clause)).all
        (evalLiteral vars bits))

/-- Number of positions at which two equal-length patterns differ. -/
def diffCount (a b : List Char) : Nat :=
  ((a.zip b).filter (fun p => decide (p.1 ≠ p.2))).length

/-!
Helper lemmas.
-/

/-- Combining reads only the pattern and the covered list, so marking the
left operand used does not change the result. -/
theorem combine_use_left (a b : Minterm) : a.use.combine b = a.combine b := rfl

/-- Combining reads only the pattern and the covered list, so marking the
right operand used does not change the result. -/
theorem combine_use_right (a b : Minterm) : a.combine b.use = a.combine b := rfl

/-- The threaded `term1` of the inner comparison loop never loses its
used mark. -/
theorem innerLoop_fst_used : ∀ (g2 : List Minterm) (t1 : Minterm) (ng : List Minterm),
    t1.used = true → ((innerLoop t1 g2 ng).1).used = true
  | [], _, _, h => h
  | t2 :: rest, t1, ng, h => by
    cases hc : Minterm.combine t1 t2 with
    | some t3 =>
      simp only [innerLoop, hc]
      exact innerLoop_fst_used rest t1.use _ rfl
    | none =>
      simp only [innerLoop, hc]
      exact innerLoop_fst_used rest t1 _ h

/-- After the inner comparison loop, every term of the second group that
combined successfully with `term1` carries the used mark, and so does
`term1` itself. -/
theorem innerLoop_marks : ∀ (g2 : List Minterm) (t1 : Minterm) (ng : List Minterm) (i2 : Nat),
    i2 < g2.length →
    (Minterm.combine t1 (g2.getD i2 mtDefault)).isSome = true →
    (((innerLoop t1 g2 ng).2.1).getD i2 mtDefault).used = true
    ∧ ((innerLoop t1 g2 ng).1).used = true
  | [], _, _, i2, h, _ => absurd h (by simp)
  | t2 :: rest, t1, ng, 0, _, hsome => by
    cases hc : Minterm.combine t1 t2 with
    | none =>
      rw [List.getD_cons_zero, hc] at hsome
      exact absurd hsome (by simp)
    | some t3 =>
      simp only [innerLoop, hc, List.getD_cons_zero]
      exact ⟨rfl, innerLoop_fst_used rest t1.use _ rfl⟩
  | t2 :: rest, t1, ng, i2 + 1, h, hsome => by
    rw [List.getD_cons_succ] at hsome
    cases hc : Minterm.combine t1 t2 with
    | some t3 =>
      simp only [innerLoop, hc, List.getD_cons_succ]
      have hsome' : (Minterm.combine t1.use (rest.getD i2 mtDefault)).isSome = true := by
        rw [combine_use_left]; exact hsome
      exact innerLoop_marks rest t1.use _ i2 (Nat.lt_of_succ_lt_succ h) hsome'
    | none =>
      simp only [innerLoop, hc, List.getD_cons_succ]
      exact innerLoop_marks rest t1 _ i2 (Nat.lt_of_succ_lt_succ h) hsome

/-- Index of a member is in range (for the `Bool`-equality `indexOf` used
in the embedding). -/
theorem indexOf_lt_length_of_mem : ∀ (l : List Nat) (w : Nat), w ∈ l → l.indexOf w < l.length
  | [], w, hw => absurd hw (List.not_mem_nil w)
  | v :: rest, w, hw => by
    rw [List.indexOf_cons]
    by_cases h : v = w
    · simp [h]
    · have hbeq : (v == w) = false := by simp [h]
      rw [hbeq]
      simp only [cond_false, List.length_cons]
      have hw' : w ∈ rest := by
        cases List.mem_cons.mp hw with
        | inl hh => exact absurd hh.symm h
        | inr hh => exact hh
      exact Nat.succ_lt_succ (indexOf_lt_length_of_mem rest w hw')

/-- Writing `true` into a `Bool` list never turns an existing `true`
entry off. -/
theorem getD_set_true (used : List Bool) (j i : Nat)
    (h : used.getD i false = true) : (used.set j true).getD i false = true := by
  rw [List.getD_eq_getElem?_getD] at h ⊢
  rw [List.getElem?_set]
  by_cases hji : j = i
  · subst hji
    by_cases hlt : j < used.length
    · simp [hlt]
    · rw [List.getElem?_eq_none (Nat.le_of_not_lt hlt)] at h
      simp at h
  · simp only [if_neg hji]
    exact h

/-- Writing `true` at an in-range index makes that entry `true`. -/
theorem getD_set_self_true (used : List Bool) (j : Nat) (hj : j < used.length) :
    (used.set j true).getD j false = true := by
  rw [List.getD_eq_getElem?_getD, List.getElem?_set_self hj]
  rfl

/-- The marking fold of `QM.__solve` never turns a satisfied entry off. -/
theorem markValues_getD_mono : ∀ (cvs vals dcs : List Nat) (used : List Bool) (i : Nat),
    used.getD i false = true → (markValues vals dcs cvs used).getD i false = true
  | [], _, _, _, _, h => h
  | v :: rest, vals, dcs, used, i, h => by
    simp only [markValues, List.foldl_cons]
    by_cases hv : v ∈ dcs
    · rw [if_pos hv]
      exact markValues_getD_mono rest vals dcs used i h
    · rw [if_neg hv]
      exact markValues_getD_mono rest vals dcs _ i (getD_set_true used _ i h)

/-- The marking fold of `QM.__solve` marks the slot of every covered
value that is not a don't-care, provided its slot index is in range. -/
theorem markValues_marks : ∀ (cvs vals dcs : List Nat) (used : List Bool) (w : Nat),
    w ∈ cvs → w ∉ dcs → vals.indexOf w < used.length →
    (markValues vals dcs cvs used).getD (vals.indexOf w) false = true
  | [], _, _, _, w, hw, _, _ => absurd hw (List.not_mem_nil w)
  | v :: rest, vals, dcs, used, w, hw, hdc, hlt => by
    simp only [markValues, List.foldl_cons]
    by_cases hwv : w = v
    · subst hwv
      rw [if_neg hdc]
      exact markValues_getD_mono rest vals dcs _ _ (getD_set_self_true used _ hlt)
    · have hw' : w ∈ rest := by
        cases List.mem_cons.mp hw with
        | inl hh => exact absurd hh hwv
        | inr hh => exact hh
      by_cases hv : v ∈ dcs
      · rw [if_pos hv]
        exact markValues_marks rest vals dcs used w hw' hdc hlt
      · rw [if_neg hv]
        exact markValues_marks rest vals dcs _ w hw' hdc (by rw [List.length_set]; exact hlt)

/-- Difference count of two cons patterns. -/
theorem diffCount_cons (c1 c2 : Char) (r1 r2 : List Char) :
    diffCount (c1 :: r1) (c2 :: r2) = (if c1 = c2 then 0 else 1) + diffCount r1 r2 := by
  simp only [diffCount, List.zip_cons_cons, List.filter_cons]
  by_cases h : c1 = c2
  · simp [h]
  · simp [h, Nat.add_comm]

/-- Equal-length patterns differ in zero positions exactly when they are
equal. -/
theorem diffCount_eq_zero : ∀ (a b : List Char), a.length = b.length →
    (diffCount a b = 0 ↔ a = b)
  | [], [], _ => by simp [diffCount]
  | [], _ :: _, h => by simp at h
  | _ :: _, [], h => by simp at h
  | c1 :: r1, c2 :: r2, h => by
    rw [diffCount_cons]
    by_cases hc : c1 = c2
    · rw [if_pos hc, Nat.zero_add, diffCount_eq_zero r1 r2 (by simpa using h)]
      subst hc
      simp
    · rw [if_neg hc]
      constructor
      · intro h0
        exact absurd h0 (by omega)
      · intro he
        injection he with h1 _
        exact absurd h1 hc

/-- Closed form of the character loop of `Minterm.combine` on equal-length
patterns: it succeeds exactly when the running difference count stays at
most one, and then generalizes each differing position to a dash. -/
theorem combineLoop_spec : ∀ (a b : List Char), a.length = b.length → ∀ d : Nat, d ≤ 1 →
    combineLoop a b d =
      if d + diffCount a b ≤ 1 then
        some (List.zipWith (fun x y => if x = y then x else '-') a b)
      else none
  | [], [], _, d, hd => by
    have h0 : diffCount [] [] = 0 := rfl
    rw [h0, if_pos (by omega)]
    rfl
  | [], _ :: _, h, _, _ => by simp at h
  | _ :: _, [], h, _, _ => by simp at h
  | c1 :: r1, c2 :: r2, h, d, hd => by
    have hlen : r1.length = r2.length := by simpa using h
    rw [diffCount_cons]
    by_cases hc : c1 = c2
    · have hstep : combineLoop (c1 :: r1) (c2 :: r2) d =
          (combineLoop r1 r2 d).map (fun r => c1 :: r) := by
        simp only [combineLoop]
        rw [if_neg (not_not_intro hc)]
      rw [hstep, combineLoop_spec r1 r2 hlen d hd, if_pos hc, Nat.zero_add]
      by_cases hcond : d + diffCount r1 r2 ≤ 1
      · rw [if_pos hcond, if_pos hcond]
        simp [List.zipWith_cons_cons, hc]
      · rw [if_neg hcond, if_neg hcond]
        rfl
    · have hstep : combineLoop (c1 :: r1) (c2 :: r2) d =
          if d + 1 > 1 then none
          else (combineLoop r1 r2 (d + 1)).map (fun r => '-' :: r) := by
        simp only [combineLoop]
        rw [if_pos hc]
      rw [hstep, if_neg hc]
      by_cases hd0 : d = 0
      · subst hd0
        rw [if_neg (by omega), combineLoop_spec r1 r2 hlen 1 (by omega)]
        by_cases hcond : 1 + diffCount r1 r2 ≤ 1
        · rw [if_pos hcond, if_pos (by omega)]
          simp [List.zipWith_cons_cons, hc]
        · rw [if_neg hcond, if_neg (by omega)]
          rfl
      · rw [if_pos (by omega), if_neg (by omega)]

/-!
Claim theorems.
-/

/-- C1: the claim that for every valid input the rendered expression
evaluates to true at every listed true value (and false at every
non-listed, non-don't-care value) FAILS on the code.  Failing input:
variables `["A","B","C"]`, true values `[0,1,2,5,6,7]`, no don't-cares,
minterm mode (the classic cyclic prime-implicant chart).  The cover search
returns only the last remaining implicant, the rendered expression is
`"(A AND B)"`, and substituting the bit assignment of the listed true
value `0` into it evaluates to false. -/
theorem c1_soundness_fails : 
    getFunctionStr ["A", "B", "C"] [0, 1, 2, 5, 6, 7] [] false = some "(A AND B)"
    ∧ 0 ∈ [0, 1, 2, 5, 6, 7]
    ∧ 0 ∉ ([] : List Nat)
    ∧ evalExpr ["A", "B", "C"] 0 "(A AND B)" = false := by
  set_option maxRecDepth 100000 in decide

/-- C2: the claim that the cover search returns an exact minimal cover of
the residual values FAILS on the code.  On the cyclic input
`["A","B","C"]`, `[0,1,2,5,6,7]`, the essential scan selects nothing (every
value is covered by exactly two of the six prime implicants), the residual
list is the full value list, yet the solver returns only the last pool
implicant `m(6,7) = 11-`, whose covered set `[6,7]` is not the residual
list — even though an exact cover by three pool implicants exists.
`min_set` starts as the one-element subset `power_set[0]` and is only ever
replaced by a *strictly shorter* covering subset, which cannot exist. -/
theorem c2_cover_search_fails :
    getPrimeImplicants ((initialGroup ["A", "B", "C"] ([0, 1, 2, 5, 6, 7] ++ [])).getD []) =
      [⟨[0, 1], ['0', '0', '-'], false⟩, ⟨[0, 2], ['0', '-', '0'], false⟩,
       ⟨[1, 5], ['-', '0', '1'], false⟩, ⟨[2, 6], ['-', '1', '0'], false⟩,
       ⟨[5, 7], ['1', '-', '1'], false⟩, ⟨[6, 7], ['1', '1', '-'], false⟩]
    ∧ (essentialLoop [0, 1, 2, 5, 6, 7] []
        (getPrimeImplicants ((initialGroup ["A", "B", "C"] ([0, 1, 2, 5, 6, 7] ++ [])).getD []))).1 = []
    ∧ solve ["A", "B", "C"] [0, 1, 2, 5, 6, 7] [] = some [⟨[6, 7], ['1', '1', '-'], false⟩]
    ∧ coveredValues [⟨[6, 7], ['1', '1', '-'], false⟩] [0, 1, 2, 5, 6, 7] = [6, 7]
    ∧ [6, 7] ≠ [0, 1, 2, 5, 6, 7]
    ∧ coveredValues
        [⟨[0, 1], ['0', '0', '-'], false⟩, ⟨[2, 6], ['-', '1', '0'], false⟩,
         ⟨[5, 7], ['1', '-', '1'], false⟩] [0, 1, 2, 5, 6, 7] = [0, 1, 2, 5, 6, 7] := by
  set_option maxRecDepth 100000 in decide

/-- C6: on variables `["A","B","C"]` with true values `[1,3,5,7]` and no
don't-cares in minterm mode, the solver yields the single implicant with
pattern `--1`, the rendered expression is `"(C)"`, and over all eight bit
assignments that string evaluates exactly as the single literal `C` (the
low bit of the assignment index). -/
theorem c6_single_literal :
    solve ["A", "B", "C"] [1, 3, 5, 7] [] = some [⟨[1, 3, 5, 7], ['-', '-', '1'], false⟩]
    ∧ getFunctionStr ["A", "B", "C"] [1, 3, 5, 7] [] false = some "(C)"
    ∧ ((List.range 8).all fun k =>
        evalExpr ["A", "B", "C"] k "(C)" == decide (k % 2 = 1)) = true := by
  set_option maxRecDepth 100000 in decide

/-- C7: constant cases — `["A","B"]` with no true values renders `"0"`,
`["A","B"]` with all four true values renders `"1"`; in general an empty
final implicant list renders `"0"`, and a single implicant whose pattern
is all dashes (at the variable count's length) renders `"1"`. -/
theorem c7_constant_cases :
    getFunctionStr ["A", "B"] [] [] false = some "0"
    ∧ getFunctionStr ["A", "B"] [0, 1, 2, 3] [] false = some "1"
    ∧ (∀ (vars : List String) (mode : Bool), renderFunction vars mode [] = "0")
    ∧ (∀ (vars : List String) (mode : Bool) (m : Minterm),
        m.value.length = vars.length → (∀ c ∈ m.value, c = '-') →
        renderFunction vars mode [m] = "1") := by
  refine ⟨?_, ?_, ?_, ?_⟩
  · set_option maxRecDepth 100000 in decide
  · set_option maxRecDepth 100000 in decide
  · intro vars mode
    simp [renderFunction]
  · intro vars mode m hlen hdash
    have hcount : m.value.count '-' = m.value.length :=
      List.count_eq_length.mpr (fun c hc => (hdash c hc).symm)
    rw [renderFunction, if_neg (by simp), if_pos]
    exact ⟨rfl, by rw [List.getD_cons_zero, hcount, hlen]⟩

/-- C7 witness: the general clauses of `c7_constant_cases` applied at a
concrete all-dash implicant for two variables. -/
theorem c7_witness :
    renderFunction ["X", "Y"] false [] = "0"
    ∧ renderFunction ["X", "Y"] false [Minterm.mk' [0] ['-', '-']] = "1" :=
  ⟨c7_constant_cases.2.2.1 ["X", "Y"] false,
   c7_constant_cases.2.2.2 ["X", "Y"] false (Minterm.mk' [0] ['-', '-'])
     (by decide) (by decide)⟩

/-- C8: `get_function` is idempotent — the method returns the eagerly
stored `_function` string and does not modify the instance, so a second
call on the instance returned by the first call yields the identical
string. -/
theorem c8_get_function_idempotent (q : QM) :
    (QM.get_function q).2 = q
    ∧ (QM.get_function ((QM.get_function q).2)).1 = (QM.get_function q).1 :=
  ⟨rfl, rfl⟩

/-- C9: the constructor performs no validation; for `variables = ["A"]`
and `values = [3]` the padded binary string `"11"` has popcount 2, the
bucket list has only indices 0 and 1, so `groups[2]` raises an uncaught
IndexError (modelled `none`) and construction fails. -/
theorem c9_out_of_range_crash :
    (getBits ["A"] 3).count '1' = 2
    ∧ List.length ["A"] + 1 = 2
    ∧ initialGroup ["A"] ([3] ++ []) = none
    ∧ mkQM ["A"] [3] [] false = none := by
  set_option maxRecDepth 4000 in decide

/-- C3 counterexample: a successful `Minterm.combine` call does NOT mark
its operands used — the terms `m(1) = 01` and `m(3) = 11` combine to a new
term, yet both operands' used flags are still false afterwards (the
marking in the source is done by the caller, `QM.__get_prime_implicants`,
not by `combine`). -/
theorem c3_counterexample :
    ((Minterm.mk' [1] ['0', '1']).combineM (Minterm.mk' [3] ['1', '1'])).1.isSome = true
    ∧ (((Minterm.mk' [1] ['0', '1']).combineM (Minterm.mk' [3] ['1', '1'])).2.1).used = false
    ∧ (((Minterm.mk' [1] ['0', '1']).combineM (Minterm.mk' [3] ['1', '1'])).2.2).used = false := by
  decide

/-- C3 (amended): `Minterm.combine` itself leaves both operands' used
flags unchanged whether it returns a new term or nothing; the marking is
performed by the extraction pass, which calls `use()` on both operands of
every successfully combining pair, so after the inner comparison loop both
members of any combinable pair carry the used mark. -/
theorem c3_combine_marking :
    (∀ m1 m2 : Minterm, (m1.combineM m2).2.1 = m1 ∧ (m1.combineM m2).2.2 = m2)
    ∧ (∀ (t1 : Minterm) (g2 ng : List Minterm) (i2 : Nat),
        i2 < g2.length →
        (Minterm.combine t1 (g2.getD i2 mtDefault)).isSome = true →
        (((innerLoop t1 g2 ng).2.1).getD i2 mtDefault).used = true
        ∧ ((innerLoop t1 g2 ng).1).used = true) := by
  constructor
  · intro m1 m2
    exact ⟨rfl, rfl⟩
  · intro t1 g2 ng i2 h hc
    exact innerLoop_marks g2 t1 ng i2 h hc

/-- C3 witness: the marking clause of `c3_combine_marking` at the
combinable pair `m(1) = 01`, `m(3) = 11` inside a one-element group. -/
theorem c3_witness :
    (((innerLoop (Minterm.mk' [1] ['0', '1']) [Minterm.mk' [3] ['1', '1']] []).2.1).getD 0 mtDefault).used = true
    ∧ ((innerLoop (Minterm.mk' [1] ['0', '1']) [Minterm.mk' [3] ['1', '1']] []).1).used = true :=
  c3_combine_marking.2 (Minterm.mk' [1] ['0', '1']) [Minterm.mk' [3] ['1', '1']] [] 0
    (by decide) (by decide)

/-- C4 counterexample: the spec's guard is a disjunction, but the code's
is a conjunction.  The terms `m(1) = 0` and `m(1) = 1` have patterns that
differ (in exactly one position) while their covered lists are equal, so
the claim predicts a successful combination, yet `combine` returns
nothing. -/
theorem c4_counterexample :
    diffCount (Minterm.mk' [1] ['0']).value (Minterm.mk' [1] ['1']).value = 1
    ∧ (Minterm.mk' [1] ['0']).value ≠ (Minterm.mk' [1] ['1']).value
    ∧ (Minterm.mk' [1] ['0']).combine (Minterm.mk' [1] ['1']) = none := by
  decide

/-- C4 (amended): for equal-length patterns, `Minterm.combine` returns a
new term exactly when the patterns differ AND the covered lists differ
AND the patterns differ in exactly one position; the returned term's
pattern equals both parents' patterns except at the differing position,
which becomes a dash, and its covered list is the sorted concatenation of
the parents' covered lists — as a set, their union. -/
theorem c4_combine_spec (m1 m2 : Minterm) (hlen : m1.value.length = m2.value.length) :
    ((m1.combine m2).isSome = true ↔
      m1.value ≠ m2.value ∧ m1.values ≠ m2.values ∧ diffCount m1.value m2.value = 1)
    ∧ (∀ t, m1.combine m2 = some t →
        t.value = List.zipWith (fun x y => if x = y then x else '-') m1.value m2.value
        ∧ t.values = (m1.values ++ m2.values).insertionSort (· ≤ ·)
        ∧ ∀ x, x ∈ t.values ↔ x ∈ m1.values ∨ x ∈ m2.values) := by
  by_cases hguard : m1.value = m2.value ∨ m1.values = m2.values
  · constructor
    · rw [Minterm.combine, if_pos hguard]
      constructor
      · intro hfalse
        exact absurd hfalse (by simp)
      · rintro ⟨h1, h2, _⟩
        rcases hguard with h | h
        · exact absurd h h1
        · exact absurd h h2
    · intro t ht
      rw [Minterm.combine, if_pos hguard] at ht
      exact absurd ht (by simp)
  · push_neg at hguard
    obtain ⟨hv, hvs⟩ := hguard
    have hcomb : m1.combine m2 = (combineLoop m1.value m2.value 0).map
        (fun res => Minterm.mk' (m1.values ++ m2.values) res) := by
      rw [Minterm.combine, if_neg (by push_neg; exact ⟨hv, hvs⟩)]
    have hdc0 : diffCount m1.value m2.value ≠ 0 := by
      intro h0
      exact hv ((diffCount_eq_zero _ _ hlen).mp h0)
    rw [hcomb, combineLoop_spec m1.value m2.value hlen 0 (by omega)]
    by_cases hcond : 0 + diffCount m1.value m2.value ≤ 1
    · rw [if_pos hcond]
      refine ⟨⟨fun _ => ⟨hv, hvs, by omega⟩, fun _ => rfl⟩, ?_⟩
      intro t ht
      simp only [Option.map_some'] at ht
      injection ht with ht
      subst ht
      refine ⟨rfl, rfl, ?_⟩
      intro x
      show x ∈ (m1.values ++ m2.values).insertionSort (· ≤ ·) ↔ _
      rw [List.Perm.mem_iff (List.perm_insertionSort _ _), List.mem_append]
    · rw [if_neg hcond]
      constructor
      · constructor
        · intro h
          exact absurd h (by simp)
        · rintro ⟨_, _, hdc⟩
          exact absurd (by omega : 0 + diffCount m1.value m2.value ≤ 1) hcond
      · intro t ht
        exact absurd ht (by simp)

/-- C4 witness: `c4_combine_spec` at the pair `m(1) = 01`, `m(3) = 11`,
which combines successfully. -/
theorem c4_witness :
    ((Minterm.mk' [1] ['0', '1']).combine (Minterm.mk' [3] ['1', '1'])).isSome = true :=
  (c4_combine_spec (Minterm.mk' [1] ['0', '1']) (Minterm.mk' [3] ['1', '1'])
    (by decide)).1.mpr (by decide)

/-- C5: essential selection — when exactly one prime implicant covers a
scanned true value, the scan step appends it to the essential set unless
already present and marks the slot of every non-don't-care value it covers
as satisfied (when already present the state is unchanged, its values
having been marked when it was added); and when after the scan every slot
of `values_used` is satisfied, the solver returns exactly the essential
set, performing no cover search. -/
theorem c5_essential_selection :
    (∀ (vals dcs : List Nat) (primes ess : List Minterm) (used : List Bool) (v : Nat) (m : Minterm),
      primes.filter (fun p => decide (v ∈ p.values)) = [m] →
      used.length = vals.length →
      (mtMem m ess = true → essentialStep vals dcs primes (ess, used) v = (ess, used))
      ∧ (mtMem m ess = false →
          (essentialStep vals dcs primes (ess, used) v).1 = ess ++ [m]
          ∧ ∀ w ∈ m.values, w ∉ dcs → w ∈ vals →
              ((essentialStep vals dcs primes (ess, used) v).2).getD (vals.indexOf w) false = true))
    ∧ (∀ (vars : List String) (vals dcs : List Nat) (groups : List (List Minterm)),
        initialGroup vars (vals ++ dcs) = some groups →
        (essentialLoop vals dcs (getPrimeImplicants groups)).2.count false = 0 →
        solve vars vals dcs = some (essentialLoop vals dcs (getPrimeImplicants groups)).1) := by
  constructor
  · intro vals dcs primes ess used v m hcov hlen
    constructor
    · intro hmem
      simp only [essentialStep, hcov, List.getLast?_singleton]
      rw [if_neg (by simp [hmem])]
    · intro hmem
      constructor
      · simp only [essentialStep, hcov, List.getLast?_singleton]
        rw [if_pos ⟨rfl, hmem⟩]
      · intro w hw hdc hwv
        simp only [essentialStep, hcov, List.getLast?_singleton]
        rw [if_pos ⟨rfl, hmem⟩]
        exact markValues_marks m.values vals dcs used w hw hdc
          (by rw [hlen]; exact indexOf_lt_length_of_mem vals w hwv)
  · intro vars vals dcs groups hg hcount
    simp only [solve, hg]
    rw [if_pos hcount]

/-- C5 witness: both clauses of `c5_essential_selection` at the concrete
run on variables `["A","B","C"]` with true values `[1,3,5,7]`, whose only
prime implicant `m(1,3,5,7) = --1` is essential for the value 1 and
satisfies every slot, so the solver returns the essential set alone. -/
theorem c5_witness :
    ((essentialStep [1, 3, 5, 7] [] [⟨[1, 3, 5, 7], ['-', '-', '1'], false⟩]
        ([], [false, false, false, false]) 1).1 = [] ++ [⟨[1, 3, 5, 7], ['-', '-', '1'], false⟩])
    ∧ ((essentialStep [1, 3, 5, 7] [] [⟨[1, 3, 5, 7], ['-', '-', '1'], false⟩]
        ([], [false, false, false, false]) 1).2).getD ([1, 3, 5, 7].indexOf 3) false = true
    ∧ solve ["A", "B", "C"] [1, 3, 5, 7] [] =
        some (essentialLoop [1, 3, 5, 7] []
          (getPrimeImplicants ((initialGroup ["A", "B", "C"] ([1, 3, 5, 7] ++ [])).getD []))).1 := by
  refine ⟨?_, ?_, ?_⟩
  · exact ((c5_essential_selection.1 [1, 3, 5, 7] [] _ [] _ 1
      ⟨[1, 3, 5, 7], ['-', '-', '1'], false⟩ (by decide) (by decide)).2 (by decide)).1
  · exact ((c5_essential_selection.1 [1, 3, 5, 7] [] _ [] _ 1
      ⟨[1, 3, 5, 7], ['-', '-', '1'], false⟩ (by decide) (by decide)).2 (by decide)).2
      3 (by decide) (by decide) (by decide)
  · exact c5_essential_selection.2 ["A", "B", "C"] [1, 3, 5, 7] [] _
      (by set_option maxRecDepth 10000 in decide)
      (by set_option maxRecDepth 100000 in decide)

/-- C10: every covered-values list is sorted for the whole lifetime of a
term — the constructor sorts it, a term created by `combine` is built by
the constructor and hence sorted, and `use` does not touch it; moreover on
sorted duplicate-free lists the list equality used by `Minterm.__eq__`
coincides with set equality. -/
theorem c10_sorted_invariant :
    (∀ (vs : List Nat) (p : List Char), ((Minterm.mk' vs p).values).Sorted (· ≤ ·))
    ∧ (∀ (m1 m2 t : Minterm), m1.combine m2 = some t → (t.values).Sorted (· ≤ ·))
    ∧ (∀ m : Minterm, m.use.values = m.values)
    ∧ (∀ a b : Minterm, a.values.Sorted (· ≤ ·) → b.values.Sorted (· ≤ ·) →
        a.values.Nodup → b.values.Nodup →
        (mtEq a b = true ↔ (a.value = b.value ∧ ∀ x, x ∈ a.values ↔ x ∈ b.values))) := by
  refine ⟨?_, ?_, ?_, ?_⟩
  · intro vs p
    exact List.sorted_insertionSort (· ≤ ·) vs
  · intro m1 m2 t ht
    rw [Minterm.combine] at ht
    by_cases hg : m1.value = m2.value ∨ m1.values = m2.values
    · rw [if_pos hg] at ht
      exact absurd ht (by simp)
    · rw [if_neg hg] at ht
      cases hcl : combineLoop m1.value m2.value 0 with
      | none =>
        rw [hcl] at ht
        exact absurd ht (by simp)
      | some res =>
        rw [hcl] at ht
        simp only [Option.map_some'] at ht
        injection ht with ht
        subst ht
        exact List.sorted_insertionSort (· ≤ ·) _
  · intro m
    rfl
  · intro a b hsa hsb hna hnb
    simp only [mtEq, Bool.and_eq_true, decide_eq_true_eq]
    constructor
    · rintro ⟨h1, h2⟩
      exact ⟨h1, fun x => by rw [h2]⟩
    · rintro ⟨h1, h2⟩
      refine ⟨h1, ?_⟩
      exact List.eq_of_perm_of_sorted ((List.perm_ext_iff_of_nodup hna hnb).mpr h2) hsa hsb

/-- C10 witness: the clauses of `c10_sorted_invariant` at concrete terms —
a constructor call on an unsorted list, a successful combination, and two
equal-up-to-used terms with sorted duplicate-free covered lists. -/
theorem c10_witness :
    ((Minterm.mk' [3, 1] ['-', '-']).values).Sorted (· ≤ ·)
    ∧ (((Minterm.mk' [1, 3] ['-', '1']).values).Sorted (· ≤ ·))
    ∧ (Minterm.use ⟨[1, 2], ['0'], false⟩).values = [1, 2]
    ∧ (mtEq ⟨[1, 2], ['0'], false⟩ ⟨[1, 2], ['0'], true⟩ = true ↔
        ((['0'] : List Char) = ['0'] ∧ ∀ x, x ∈ [1, 2] ↔ x ∈ [1, 2])) := by
  refine ⟨?_, ?_, ?_, ?_⟩
  · exact c10_sorted_invariant.1 [3, 1] ['-', '-']
  · exact c10_sorted_invariant.2.1 (Minterm.mk' [1] ['0', '1']) (Minterm.mk' [3] ['1', '1'])
      (Minterm.mk' [1, 3] ['-', '1']) (by decide)
  · exact c10_sorted_invariant.2.2.1 ⟨[1, 2], ['0'], false⟩
  · exact c10_sorted_invariant.2.2.2 ⟨[1, 2], ['0'], false⟩ ⟨[1, 2], ['0'], true⟩
      (by decide) (by decide) (by decide) (by decide)
